import Mathlib

/-!
Verification of the amarvoice-ai voice-interface client.

This file gives a shallow embedding of the audio utilities
(src/services/audioUtils.ts) and of the state-updating logic of the
voice-interface component, and proves properties of them.

Conventions of the embedding:
* JS byte arrays (Uint8Array) are `List Nat` with every element `< 256`;
* JS strings are `List Char` where character codes matter, or `String`
  where the code manipulates them with startsWith / trim / split;
* JS numbers are `ℚ` (the code never relies on float rounding: it only
  clamps, scales, truncates to integers, and compares against constants);
* Int16Array cells are `ℤ` constrained to [-32768, 32767] by the JS
  ToInt16 conversion, which truncates toward zero and wraps mod 2^16.
-/

namespace AmarVoice

/-! ## Base64 (browser btoa / atob)

`encode` and `decode` in audioUtils.ts delegate to the browser builtins
`btoa` and `atob`.  Modelled from the spec: `btoa`/`atob` are the
standard RFC 4648 base64 encoder/decoder over latin-1 strings, which the
repository does not implement itself. -/

/-- The RFC 4648 base64 alphabet, as used by the browser's btoa/atob. -/
def b64Table : List Char :=
  ['A','B','C','D','E','F','G','H','I','J','K','L','M','N','O','P',
   'Q','R','S','T','U','V','W','X','Y','Z',
   'a','b','c','d','e','f','g','h','i','j','k','l','m','n','o','p',
   'q','r','s','t','u','v','w','x','y','z',
   '0','1','2','3','4','5','6','7','8','9','+','/']

/-- Character for a sextet value. -/
def b64Char (n : Nat) : Char := b64Table.getD n 'A'

/-- Sextet value of an alphabet character. -/
def b64Index (c : Char) : Nat := b64Table.indexOf c

/-- btoa: encode a latin-1 string (list of code units ≤ 255) in base64,
three bytes to four characters, padding with '='. -/
def btoaBytes : List Nat → List Char
  | [] => []
  | [a] => [b64Char (a / 4), b64Char (a % 4 * 16), '=', '=']
  | [a, b] => [b64Char (a / 4), b64Char (a % 4 * 16 + b / 16), b64Char (b % 16 * 4), '=']
  | a :: b :: c :: rest =>
    b64Char (a / 4) :: b64Char (a % 4 * 16 + b / 16) ::
    b64Char (b % 16 * 4 + c / 64) :: b64Char (c % 64) :: btoaBytes rest

/-- atob: decode a base64 string back to a latin-1 string (list of code
units), honouring '=' padding on the last quartet. -/
def atobChars : List Char → List Nat
  | c1 :: c2 :: c3 :: c4 :: rest =>
    if c3 = '=' then
      [b64Index c1 * 4 + b64Index c2 / 16]
    else if c4 = '=' then
      [b64Index c1 * 4 + b64Index c2 / 16,
       b64Index c2 % 16 * 16 + b64Index c3 / 4]
    else
      (b64Index c1 * 4 + b64Index c2 / 16) ::
      (b64Index c2 % 16 * 16 + b64Index c3 / 4) ::
      (b64Index c3 % 4 * 64 + b64Index c4) :: atobChars rest
  | _ => []

/-! ## audioUtils.ts: encode / decode -/

/-- `encode(bytes)` (audioUtils.ts:2-9): build a binary string from the
byte values with String.fromCharCode (which reduces its argument mod
2^16) and base64-encode it with btoa. -/
def encode (bytes : List Nat) : List Char :=
  btoaBytes (bytes.map (fun b => b % 65536))

/-- `decode(base64)` (audioUtils.ts:11-19): atob to a binary string,
then read the code units back with charCodeAt. -/
def decode (base64 : List Char) : List Nat :=
  atobChars base64

theorem b64Index_b64Char : ∀ n < 64, b64Index (b64Char n) = n := by decide

theorem b64Char_ne_eq : ∀ n < 64, b64Char n ≠ '=' := by decide

theorem atobChars_pad2 (c1 c2 : Char) :
    atobChars [c1, c2, '=', '='] = [b64Index c1 * 4 + b64Index c2 / 16] := by
  simp [atobChars]

theorem atobChars_pad1 (c1 c2 c3 : Char) (h3 : c3 ≠ '=') :
    atobChars [c1, c2, c3, '='] =
      [b64Index c1 * 4 + b64Index c2 / 16,
       b64Index c2 % 16 * 16 + b64Index c3 / 4] := by
  simp [atobChars, h3]

theorem atobChars_cons (c1 c2 c3 c4 : Char) (rest : List Char)
    (h3 : c3 ≠ '=') (h4 : c4 ≠ '=') :
    atobChars (c1 :: c2 :: c3 :: c4 :: rest) =
      (b64Index c1 * 4 + b64Index c2 / 16) ::
      (b64Index c2 % 16 * 16 + b64Index c3 / 4) ::
      (b64Index c3 % 4 * 64 + b64Index c4) :: atobChars rest := by
  simp [atobChars, h3, h4]

theorem atob_btoa : ∀ bs : List Nat, (∀ b ∈ bs, b < 256) →
    atobChars (btoaBytes bs) = bs
  | [], _ => rfl
  | [a], h => by
    have ha : a < 256 := h a (by simp)
    have h1 : a / 4 < 64 := by omega
    have h2 : a % 4 * 16 < 64 := by omega
    show atobChars [b64Char (a / 4), b64Char (a % 4 * 16), '=', '='] = [a]
    rw [atobChars_pad2, b64Index_b64Char _ h1, b64Index_b64Char _ h2]
    simp only [List.cons.injEq, and_true]
    omega
  | [a, b], h => by
    have ha : a < 256 := h a (by simp)
    have hb : b < 256 := h b (by simp)
    have h1 : a / 4 < 64 := by omega
    have h2 : a % 4 * 16 + b / 16 < 64 := by omega
    have h3 : b % 16 * 4 < 64 := by omega
    show atobChars [b64Char (a / 4), b64Char (a % 4 * 16 + b / 16),
      b64Char (b % 16 * 4), '='] = [a, b]
    rw [atobChars_pad1 _ _ _ (b64Char_ne_eq _ h3), b64Index_b64Char _ h1,
      b64Index_b64Char _ h2, b64Index_b64Char _ h3]
    simp only [List.cons.injEq, and_true]
    refine ⟨by omega, by omega⟩
  | a :: b :: c :: rest, h => by
    have ha : a < 256 := h a (by simp)
    have hb : b < 256 := h b (by simp)
    have hc : c < 256 := h c (by simp)
    have h1 : a / 4 < 64 := by omega
    have h2 : a % 4 * 16 + b / 16 < 64 := by omega
    have h3 : b % 16 * 4 + c / 64 < 64 := by omega
    have h4 : c % 64 < 64 := by omega
    have ih := atob_btoa rest (fun x hx => h x (by simp [hx]))
    show atobChars (b64Char (a / 4) :: b64Char (a % 4 * 16 + b / 16) ::
      b64Char (b % 16 * 4 + c / 64) :: b64Char (c % 64) :: btoaBytes rest)
      = a :: b :: c :: rest
    rw [atobChars_cons _ _ _ _ _ (b64Char_ne_eq _ h3) (b64Char_ne_eq _ h4),
      b64Index_b64Char _ h1, b64Index_b64Char _ h2,
      b64Index_b64Char _ h3, b64Index_b64Char _ h4, ih]
    simp only [List.cons.injEq, and_true]
    refine ⟨by omega, by omega, by omega⟩

/-- C2: decode is a left inverse of encode on byte arrays: for every
byte array b, decode(encode(b)) = b element for element (and hence of
the same length). -/
theorem decode_encode (bs : List Nat) (h : ∀ b ∈ bs, b < 256) :
    decode (encode bs) = bs := by
  unfold decode encode
  have hmap : ∀ l : List Nat, (∀ b ∈ l, b < 256) →
      l.map (fun b => b % 65536) = l := by
    intro l hl
    induction l with
    | nil => rfl
    | cons x xs ih =>
      have hx : x < 256 := hl x (by simp)
      simp only [List.map_cons, ih (fun b hb => hl b (by simp [hb])),
        List.cons.injEq, and_true]
      omega
  rw [hmap bs h]
  exact atob_btoa bs h

/-- Witness for `decode_encode` at a concrete byte array. -/
theorem decode_encode_witness :
    (∀ b ∈ [0, 1, 127, 128, 255, 16], b < 256) ∧
      decode (encode [0, 1, 127, 128, 255, 16]) = [0, 1, 127, 128, 255, 16] :=
  ⟨by decide, decode_encode [0, 1, 127, 128, 255, 16] (by decide)⟩

/-! ## audioUtils.ts: createBlob -/

/-- `Math.max(-1, Math.min(1, x))` (audioUtils.ts:46). -/
def clampSample (x : ℚ) : ℚ := max (-1) (min 1 x)

/-- JS truncation toward zero (step 1 of the ToInt16 abstract operation
applied on assignment to an Int16Array cell). -/
def ratTrunc (q : ℚ) : ℤ := if q < 0 then ⌈q⌉ else ⌊q⌋

/-- JS ToInt16: truncate toward zero, reduce mod 2^16 into
[-32768, 32768). -/
def jsToInt16 (q : ℚ) : ℤ := (ratTrunc q + 32768) % 65536 - 32768

/-- The value stored in `int16[i]` by `createBlob`
(audioUtils.ts:46-47): clamp, scale by 32768 (negative) or 32767
(non-negative), convert to a 16-bit cell. -/
def sampleToInt16 (x : ℚ) : ℤ :=
  jsToInt16 (if clampSample x < 0 then clampSample x * 32768
             else clampSample x * 32767)

/-- The Int16Array built by `createBlob` (audioUtils.ts:42-48). -/
def createBlobInt16 (data : List ℚ) : List ℤ := data.map sampleToInt16

/-- Little-endian bytes of a 16-bit cell, as exposed by
`new Uint8Array(int16.buffer)` (audioUtils.ts:50). -/
def int16LEBytes (v : ℤ) : List Nat :=
  [(v % 65536).toNat % 256, (v % 65536).toNat / 256]

/-- `createBlob(data)` (audioUtils.ts:41-53): the base64-encoded PCM
payload and its mime type. -/
def createBlob (data : List ℚ) : List Char × String :=
  (encode (List.flatten (List.map int16LEBytes (createBlobInt16 data))),
   "audio/pcm;rate=16000")

theorem clampSample_mem (x : ℚ) : -1 ≤ clampSample x ∧ clampSample x ≤ 1 := by
  unfold clampSample
  constructor
  · exact le_max_left _ _
  · exact max_le (by norm_num) (min_le_left _ _)

theorem sampleToInt16_spec (x : ℚ) :
    (-32768 ≤ sampleToInt16 x ∧ sampleToInt16 x ≤ 32767) ∧
    (clampSample x < 0 → sampleToInt16 x = ⌈clampSample x * 32768⌉) ∧
    (0 ≤ clampSample x → sampleToInt16 x = ⌊clampSample x * 32767⌋) := by
  obtain ⟨hlo, hhi⟩ := clampSample_mem x
  by_cases hneg : clampSample x < 0
  · have hsc : clampSample x * 32768 < 0 :=
      mul_neg_of_neg_of_pos hneg (by norm_num)
    have h1 : (-32768 : ℚ) ≤ clampSample x * 32768 := by nlinarith
    have hceil_lo : (-32768 : ℤ) ≤ ⌈clampSample x * 32768⌉ := by
      have h2 := le_trans h1 (Int.le_ceil (clampSample x * 32768))
      exact_mod_cast h2
    have hceil_hi : ⌈clampSample x * 32768⌉ ≤ 0 :=
      Int.ceil_le.mpr (by push_cast; linarith)
    have hval : sampleToInt16 x = ⌈clampSample x * 32768⌉ := by
      unfold sampleToInt16 jsToInt16 ratTrunc
      rw [if_pos hneg, if_pos hsc]
      omega
    exact ⟨⟨by omega, by omega⟩, fun _ => hval,
      fun habs => absurd hneg (not_lt.mpr habs)⟩
  · have hpos : 0 ≤ clampSample x := not_lt.mp hneg
    have hsc : (0 : ℚ) ≤ clampSample x * 32767 :=
      mul_nonneg hpos (by norm_num)
    have h1 : clampSample x * 32767 ≤ 32767 := by nlinarith
    have hfloor_lo : (0 : ℤ) ≤ ⌊clampSample x * 32767⌋ :=
      Int.floor_nonneg.mpr hsc
    have hfloor_hi : ⌊clampSample x * 32767⌋ ≤ 32767 := by
      have h2 := le_trans (Int.floor_le (clampSample x * 32767)) h1
      exact_mod_cast h2
    have hval : sampleToInt16 x = ⌊clampSample x * 32767⌋ := by
      unfold sampleToInt16 jsToInt16 ratTrunc
      rw [if_neg hneg, if_neg (not_lt.mpr hsc)]
      omega
    exact ⟨⟨by omega, by omega⟩, fun habs => absurd habs hneg, fun _ => hval⟩

/-- C1: every 16-bit cell produced by createBlob comes from a sample of
the input, clamped to [-1, 1] and scaled by 32768 (negative case) or
32767 (non-negative case, with the integer truncation the Int16Array
store performs), and every such cell lies in [-32768, 32767]. -/
theorem createBlob_cell_spec (data : List ℚ) (v : ℤ)
    (hv : v ∈ createBlobInt16 data) :
    (-32768 ≤ v ∧ v ≤ 32767) ∧
    ∃ x ∈ data, v = sampleToInt16 x ∧
      (clampSample x < 0 → v = ⌈clampSample x * 32768⌉) ∧
      (0 ≤ clampSample x → v = ⌊clampSample x * 32767⌋) := by
  obtain ⟨x, hx, rfl⟩ := List.mem_map.mp hv
  obtain ⟨hrange, hneg, hpos⟩ := sampleToInt16_spec x
  exact ⟨hrange, x, hx, rfl, hneg, hpos⟩

/-- Witness for `createBlob_cell_spec`: the sample -2 clamps to -1 and
is stored as -32768. -/
theorem createBlob_cell_spec_witness :
    sampleToInt16 (-2) ∈ createBlobInt16 [(-2 : ℚ)] ∧
      ((-32768 ≤ sampleToInt16 (-2 : ℚ) ∧ sampleToInt16 (-2 : ℚ) ≤ 32767) ∧
       ∃ x ∈ [(-2 : ℚ)], sampleToInt16 (-2 : ℚ) = sampleToInt16 x ∧
         (clampSample x < 0 → sampleToInt16 (-2 : ℚ) = ⌈clampSample x * 32768⌉) ∧
         (0 ≤ clampSample x → sampleToInt16 (-2 : ℚ) = ⌊clampSample x * 32767⌋)) :=
  ⟨by simp [createBlobInt16], createBlob_cell_spec [(-2 : ℚ)] _ (by simp [createBlobInt16])⟩

/-! ## audioUtils.ts: decodeAudioData -/

/-- A 16-bit signed integer from two little-endian bytes, as read by an
Int16Array view over the byte buffer (audioUtils.ts:28). -/
def int16FromBytes (lo hi : Nat) : ℤ :=
  if lo + hi * 256 < 32768 then ((lo + hi * 256 : Nat) : ℤ)
  else ((lo + hi * 256 : Nat) : ℤ) - 65536

/-- The Int16Array view `dataInt16` over the byte array
(audioUtils.ts:28). -/
def dataInt16 : List Nat → List ℤ
  | [] => []
  | [_] => []
  | lo :: hi :: rest => int16FromBytes lo hi :: dataInt16 rest

/-- `decodeAudioData(data, ctx, sampleRate, numChannels)`
(audioUtils.ts:21-39), as the per-channel sample data of the produced
AudioBuffer: `frameCount = dataInt16.length / numChannels` frames, and
`channelData[i] = dataInt16[i * numChannels + channel] / 32768`. -/
def decodeAudioDataChannels (bytes : List Nat) (numChannels : Nat) :
    List (List ℚ) :=
  (List.range numChannels).map (fun channel =>
    (List.range ((dataInt16 bytes).length / numChannels)).map (fun i =>
      (((dataInt16 bytes).getD (i * numChannels + channel) 0 : ℚ) / 32768)))

theorem dataInt16_length : ∀ bs : List Nat,
    (dataInt16 bs).length = bs.length / 2
  | [] => rfl
  | [_] => by
    simp only [dataInt16, List.length_nil, List.length_cons]
  | _ :: _ :: rest => by
    simp only [dataInt16, List.length_cons, dataInt16_length rest]
    omega

theorem dataInt16_getD : ∀ (bs : List Nat) (k : Nat), 2 * k + 1 < bs.length →
    (dataInt16 bs).getD k 0 =
      int16FromBytes (bs.getD (2 * k) 0) (bs.getD (2 * k + 1) 0)
  | [], k, hk => by simp only [List.length_nil] at hk; omega
  | [_], k, hk => by
    simp only [List.length_cons, List.length_nil] at hk; omega
  | lo :: hi :: rest, 0, _ => rfl
  | lo :: hi :: rest, (k + 1), hk => by
    have hk' : 2 * k + 1 < rest.length := by
      simp only [List.length_cons] at hk; omega
    have e1 : (lo :: hi :: rest).getD (2 * (k + 1)) 0 = rest.getD (2 * k) 0 := by
      have e : 2 * (k + 1) = 2 * k + 1 + 1 := by omega
      rw [e, List.getD_cons_succ, List.getD_cons_succ]
    have e2 : (lo :: hi :: rest).getD (2 * (k + 1) + 1) 0 =
        rest.getD (2 * k + 1) 0 := by
      have e : 2 * (k + 1) + 1 = 2 * k + 1 + 1 + 1 := by omega
      rw [e, List.getD_cons_succ, List.getD_cons_succ]
    have hstep : dataInt16 (lo :: hi :: rest) =
        int16FromBytes lo hi :: dataInt16 rest := rfl
    rw [hstep, List.getD_cons_succ, e1, e2]
    exact dataInt16_getD rest k hk'

theorem int16FromBytes_range (lo hi : Nat) (hlo : lo < 256) (hhi : hi < 256) :
    -32768 ≤ int16FromBytes lo hi ∧ int16FromBytes lo hi ≤ 32767 := by
  unfold int16FromBytes
  split <;> omega

theorem getD_map_range {α : Type} (f : Nat → α) (n c : Nat) (hc : c < n)
    (d : α) : ((List.range n).map f).getD c d = f c := by
  rw [List.getD_eq_getElem _ _ (by simpa using hc), List.getElem_map,
    List.getElem_range]

/-- C8: for a byte array of length 2 * numChannels * frames
(numChannels > 0), decodeAudioData yields numChannels channels of
exactly `frames` samples each, sample i of channel c being the
interleaved 16-bit integer at index i * numChannels + c divided by
32768, a value in [-1, 1). -/
theorem decodeAudioData_spec (bytes : List Nat) (numChannels frames : Nat)
    (hC : 0 < numChannels)
    (hlen : bytes.length = 2 * (numChannels * frames))
    (hb : ∀ b ∈ bytes, b < 256) :
    (decodeAudioDataChannels bytes numChannels).length = numChannels ∧
    ∀ c, c < numChannels → ∀ i, i < frames →
      ((decodeAudioDataChannels bytes numChannels).getD c []).length = frames ∧
      ((decodeAudioDataChannels bytes numChannels).getD c []).getD i 0 =
        (int16FromBytes (bytes.getD (2 * (i * numChannels + c)) 0)
          (bytes.getD (2 * (i * numChannels + c) + 1) 0) : ℚ) / 32768 ∧
      -1 ≤ ((decodeAudioDataChannels bytes numChannels).getD c []).getD i 0 ∧
      ((decodeAudioDataChannels bytes numChannels).getD c []).getD i 0 < 1 := by
  have hints_len : (dataInt16 bytes).length = numChannels * frames := by
    rw [dataInt16_length, hlen]; omega
  have hframes : (dataInt16 bytes).length / numChannels = frames := by
    rw [hints_len, Nat.mul_div_cancel_left _ hC]
  constructor
  · simp [decodeAudioDataChannels]
  · intro c hc i hi
    have hch : (decodeAudioDataChannels bytes numChannels).getD c [] =
        (List.range frames).map (fun i =>
          (((dataInt16 bytes).getD (i * numChannels + c) 0 : ℚ) / 32768)) := by
      unfold decodeAudioDataChannels
      rw [getD_map_range _ _ _ hc, hframes]
    have hidx : i * numChannels + c < numChannels * frames := by
      calc i * numChannels + c < i * numChannels + numChannels := by omega
        _ = (i + 1) * numChannels := by ring
        _ ≤ frames * numChannels := Nat.mul_le_mul_right _ hi
        _ = numChannels * frames := Nat.mul_comm _ _
    have hbound : 2 * (i * numChannels + c) + 1 < bytes.length := by omega
    have hsample :
        ((decodeAudioDataChannels bytes numChannels).getD c []).getD i 0 =
          (int16FromBytes (bytes.getD (2 * (i * numChannels + c)) 0)
            (bytes.getD (2 * (i * numChannels + c) + 1) 0) : ℚ) / 32768 := by
      rw [hch, getD_map_range _ _ _ hi,
        dataInt16_getD bytes (i * numChannels + c) hbound]
    have hblo : bytes.getD (2 * (i * numChannels + c)) 0 < 256 := by
      rw [List.getD_eq_getElem _ _ (by omega)]
      exact hb _ (List.getElem_mem _)
    have hbhi : bytes.getD (2 * (i * numChannels + c) + 1) 0 < 256 := by
      rw [List.getD_eq_getElem _ _ (by omega)]
      exact hb _ (List.getElem_mem _)
    obtain ⟨hn1, hn2⟩ := int16FromBytes_range _ _ hblo hbhi
    refine ⟨by rw [hch]; simp, hsample, ?_, ?_⟩
    · rw [hsample, le_div_iff₀ (by norm_num : (0 : ℚ) < 32768)]
      have : (-32768 : ℚ) ≤
          (int16FromBytes (bytes.getD (2 * (i * numChannels + c)) 0)
            (bytes.getD (2 * (i * numChannels + c) + 1) 0) : ℚ) := by
        exact_mod_cast hn1
      linarith
    · rw [hsample, div_lt_one (by norm_num : (0 : ℚ) < 32768)]
      have : (int16FromBytes (bytes.getD (2 * (i * numChannels + c)) 0)
          (bytes.getD (2 * (i * numChannels + c) + 1) 0) : ℚ) ≤ 32767 := by
        exact_mod_cast hn2
      linarith

/-- Witness for `decodeAudioData_spec` at a concrete 4-byte stereo
buffer (one frame of two channels). -/
theorem decodeAudioData_spec_witness :
    (0 < 2 ∧ ([0, 128, 255, 127] : List Nat).length = 2 * (2 * 1) ∧
      (∀ b ∈ ([0, 128, 255, 127] : List Nat), b < 256)) ∧
    ((decodeAudioDataChannels [0, 128, 255, 127] 2).length = 2 ∧
    ∀ c, c < 2 → ∀ i, i < 1 →
      ((decodeAudioDataChannels [0, 128, 255, 127] 2).getD c []).length = 1 ∧
      ((decodeAudioDataChannels [0, 128, 255, 127] 2).getD c []).getD i 0 =
        (int16FromBytes (([0, 128, 255, 127] : List Nat).getD (2 * (i * 2 + c)) 0)
          (([0, 128, 255, 127] : List Nat).getD (2 * (i * 2 + c) + 1) 0) : ℚ) / 32768 ∧
      -1 ≤ ((decodeAudioDataChannels [0, 128, 255, 127] 2).getD c []).getD i 0 ∧
      ((decodeAudioDataChannels [0, 128, 255, 127] 2).getD c []).getD i 0 < 1) :=
  ⟨⟨by decide, by decide, by decide⟩,
    decodeAudioData_spec [0, 128, 255, 127] 2 1 (by decide) (by decide) (by decide)⟩

/-! ## JS string primitives

The component manipulates JS strings with split('\n'), startsWith, trim,
substring and concatenation.  JS strings are modelled as `List Char`;
`trim` strips the ASCII whitespace the transcripts can contain. -/

/-- JS strings as lists of characters. -/
abbrev JSString := List Char

/-- `s.trim()`: strip whitespace from both ends. -/
def jsTrim (s : JSString) : JSString :=
  ((s.dropWhile Char.isWhitespace).reverse.dropWhile Char.isWhitespace).reverse

/-- `s.split('\n')`. -/
def jsSplitOnNl : JSString → List JSString
  | [] => [[]]
  | c :: rest =>
    match jsSplitOnNl rest with
    | [] => [[c]]
    | g :: gs => if c = '\n' then [] :: g :: gs else (c :: g) :: gs

/-! ## The voice-interface component: parseTranslatedConversation -/

/-- Speaker roles of transcript items (part_001:18). -/
inductive Role
  | user
  | ai
  deriving DecidableEq, Repr

/-- An entry returned by parseTranslatedConversation (part_001:208). -/
structure ParsedMsg where
  role : Role
  translatedText : JSString
  deriving DecidableEq, Repr

/-- The line marker 'User: '. -/
def userMarker : JSString := "User: ".toList

/-- The line marker 'AI: '. -/
def aiMarker : JSString := "AI: ".toList

/-- The push in `parseTranslatedConversation`:
`if (currentRole && currentText) parsedTranslations.push(...)`
(part_001:214-215, 220-221, 231-232).  JS truthiness: a string is
truthy iff non-empty. -/
def pushCurrent (currentRole : Option Role) (currentText : JSString)
    (acc : List ParsedMsg) : List ParsedMsg :=
  match currentRole with
  | some r => if currentText ≠ [] then acc ++ [⟨r, jsTrim currentText⟩] else acc
  | none => acc

/-- The `for (const line of lines)` loop of `parseTranslatedConversation`
(part_001:212-233), with the final push folded in. -/
def parseLoop :
    List JSString → Option Role → JSString → List ParsedMsg → List ParsedMsg
  | [], r, t, acc => pushCurrent r t acc
  | line :: rest, r, t, acc =>
    if userMarker.isPrefixOf line then
      parseLoop rest (some Role.user) (line.drop 6) (pushCurrent r t acc)
    else if aiMarker.isPrefixOf line then
      parseLoop rest (some Role.ai) (line.drop 4) (pushCurrent r t acc)
    else
      parseLoop rest r (if t ≠ [] then t ++ [' '] ++ jsTrim line else t) acc

/-- `parseTranslatedConversation(translatedText)` (part_001:206-235). -/
def parseTranslatedConversation (translatedText : JSString) : List ParsedMsg :=
  parseLoop (jsSplitOnNl translatedText) none [] []

/-- The parser as claim C10 words it: a line without a marker is
appended (space-joined, trimmed) to the current entry's text whenever an
entry is open, and every marker line opens an entry that is emitted.
Second definition, following the claim's words, for comparison with
`parseTranslatedConversation`. -/
def claimedParseLoop :
    List JSString → Option Role → JSString → List ParsedMsg → List ParsedMsg
  | [], r, t, acc =>
    (match r with
     | some role => acc ++ [⟨role, jsTrim t⟩]
     | none => acc)
  | line :: rest, r, t, acc =>
    if userMarker.isPrefixOf line then
      claimedParseLoop rest (some Role.user) (line.drop 6)
        (match r with
         | some role => acc ++ [⟨role, jsTrim t⟩]
         | none => acc)
    else if aiMarker.isPrefixOf line then
      claimedParseLoop rest (some Role.ai) (line.drop 4)
        (match r with
         | some role => acc ++ [⟨role, jsTrim t⟩]
         | none => acc)
    else
      claimedParseLoop rest r
        (match r with
         | some _ => t ++ [' '] ++ jsTrim line
         | none => t) acc

/-- The whole-input parser as claim C10 words it. -/
def claimedParse (s : JSString) : List ParsedMsg :=
  claimedParseLoop (jsSplitOnNl s) none [] []

/-- C10 counterexample: on the input "User: \nhello" the code returns no
entry at all (the continuation line is dropped because the accumulated
text is empty, and the empty entry is never pushed), while the claim's
reading returns a user entry with text "hello". -/
theorem parseTranslated_counterexample :
    parseTranslatedConversation "User: \nhello".toList = [] ∧
    claimedParse "User: \nhello".toList = [⟨Role.user, "hello".toList⟩] ∧
    parseTranslatedConversation "User: \nhello".toList ≠
      claimedParse "User: \nhello".toList :=
  ⟨by decide, by decide, by decide⟩

/-- True iff the line carries a 'User: ' or 'AI: ' marker. -/
def isMarkerLine (line : JSString) : Bool :=
  userMarker.isPrefixOf line || aiMarker.isPrefixOf line

/-- Space-join trimmed continuation lines onto a text. -/
def joinCont (t : JSString) (conts : List JSString) : JSString :=
  conts.foldl (fun acc l => acc ++ [' '] ++ jsTrim l) t

/-- Declarative reading of the parser: lines before the first marker
line are discarded; each marker line starts a block whose payload is the
rest of that line and whose continuation lines are the following
non-marker lines; a block yields an entry iff its payload is non-empty,
the entry's text being the payload space-joined with each trimmed
continuation line and trimmed. -/
def parseBlocks : List JSString → List ParsedMsg
  | [] => []
  | line :: rest =>
    if userMarker.isPrefixOf line then
      (if line.drop 6 ≠ [] then
        [⟨Role.user, jsTrim (joinCont (line.drop 6)
          (rest.takeWhile (fun l => !isMarkerLine l)))⟩]
      else []) ++ parseBlocks (rest.dropWhile (fun l => !isMarkerLine l))
    else if aiMarker.isPrefixOf line then
      (if line.drop 4 ≠ [] then
        [⟨Role.ai, jsTrim (joinCont (line.drop 4)
          (rest.takeWhile (fun l => !isMarkerLine l)))⟩]
      else []) ++ parseBlocks (rest.dropWhile (fun l => !isMarkerLine l))
    else parseBlocks rest
termination_by l => l.length
decreasing_by
  · simp only [List.length_cons]
    exact Nat.lt_succ_of_le (List.dropWhile_sublist _).length_le
  · simp only [List.length_cons]
    exact Nat.lt_succ_of_le (List.dropWhile_sublist _).length_le
  · simp only [List.length_cons]
    omega

theorem pushCurrent_nil (r : Option Role) (acc : List ParsedMsg) :
    pushCurrent r [] acc = acc := by
  unfold pushCurrent
  cases r <;> simp

theorem pushCurrent_ne (ro : Role) (t : JSString) (acc : List ParsedMsg)
    (ht : t ≠ []) :
    pushCurrent (some ro) t acc = acc ++ [⟨ro, jsTrim t⟩] := by
  simp [pushCurrent, ht]

theorem parseLoop_user (line : JSString) (rest : List JSString)
    (r : Option Role) (t : JSString) (acc : List ParsedMsg)
    (hU : userMarker.isPrefixOf line = true) :
    parseLoop (line :: rest) r t acc =
      parseLoop rest (some Role.user) (line.drop 6) (pushCurrent r t acc) := by
  rw [parseLoop]
  simp [hU]

theorem parseLoop_ai (line : JSString) (rest : List JSString)
    (r : Option Role) (t : JSString) (acc : List ParsedMsg)
    (hU : userMarker.isPrefixOf line = false)
    (hA : aiMarker.isPrefixOf line = true) :
    parseLoop (line :: rest) r t acc =
      parseLoop rest (some Role.ai) (line.drop 4) (pushCurrent r t acc) := by
  rw [parseLoop]
  simp [hU, hA]

theorem parseLoop_cont (line : JSString) (rest : List JSString)
    (r : Option Role) (t : JSString) (acc : List ParsedMsg)
    (hU : userMarker.isPrefixOf line = false)
    (hA : aiMarker.isPrefixOf line = false) :
    parseLoop (line :: rest) r t acc =
      parseLoop rest r (if t ≠ [] then t ++ [' '] ++ jsTrim line else t) acc := by
  rw [parseLoop]
  simp [hU, hA]

theorem parseBlocks_user (line : JSString) (rest : List JSString)
    (hU : userMarker.isPrefixOf line = true) :
    parseBlocks (line :: rest) =
      (if line.drop 6 ≠ [] then
        [⟨Role.user, jsTrim (joinCont (line.drop 6)
          (rest.takeWhile (fun l => !isMarkerLine l)))⟩]
      else []) ++ parseBlocks (rest.dropWhile (fun l => !isMarkerLine l)) := by
  rw [parseBlocks]
  simp [hU]

theorem parseBlocks_ai (line : JSString) (rest : List JSString)
    (hU : userMarker.isPrefixOf line = false)
    (hA : aiMarker.isPrefixOf line = true) :
    parseBlocks (line :: rest) =
      (if line.drop 4 ≠ [] then
        [⟨Role.ai, jsTrim (joinCont (line.drop 4)
          (rest.takeWhile (fun l => !isMarkerLine l)))⟩]
      else []) ++ parseBlocks (rest.dropWhile (fun l => !isMarkerLine l)) := by
  rw [parseBlocks]
  simp [hU, hA]

theorem parseBlocks_cont (line : JSString) (rest : List JSString)
    (hU : userMarker.isPrefixOf line = false)
    (hA : aiMarker.isPrefixOf line = false) :
    parseBlocks (line :: rest) = parseBlocks rest := by
  rw [parseBlocks]
  simp [hU, hA]

theorem takeWhile_marker (line : JSString) (rest : List JSString)
    (hm : isMarkerLine line = true) :
    (line :: rest).takeWhile (fun l => !isMarkerLine l) = [] := by
  simp [List.takeWhile_cons, hm]

theorem dropWhile_marker (line : JSString) (rest : List JSString)
    (hm : isMarkerLine line = true) :
    (line :: rest).dropWhile (fun l => !isMarkerLine l) = line :: rest := by
  simp [List.dropWhile_cons, hm]

theorem takeWhile_nonmarker (line : JSString) (rest : List JSString)
    (hm : isMarkerLine line = false) :
    (line :: rest).takeWhile (fun l => !isMarkerLine l) =
      line :: rest.takeWhile (fun l => !isMarkerLine l) := by
  simp [List.takeWhile_cons, hm]

theorem dropWhile_nonmarker (line : JSString) (rest : List JSString)
    (hm : isMarkerLine line = false) :
    (line :: rest).dropWhile (fun l => !isMarkerLine l) =
      rest.dropWhile (fun l => !isMarkerLine l) := by
  simp [List.dropWhile_cons, hm]

theorem parseBlocks_dropNonMarker : ∀ lines : List JSString,
    parseBlocks (lines.dropWhile (fun l => !isMarkerLine l)) =
      parseBlocks lines
  | [] => rfl
  | line :: rest => by
    cases hm : isMarkerLine line with
    | true => rw [dropWhile_marker line rest hm]
    | false =>
      have ⟨hU, hA⟩ : userMarker.isPrefixOf line = false ∧
          aiMarker.isPrefixOf line = false := by
        unfold isMarkerLine at hm
        constructor <;> [cases hu : userMarker.isPrefixOf line;
          cases ha : aiMarker.isPrefixOf line] <;> simp_all
      rw [dropWhile_nonmarker line rest hm, parseBlocks_dropNonMarker rest,
        parseBlocks_cont line rest hU hA]

theorem parseLoop_spec : ∀ lines : List JSString,
    (∀ (r : Option Role) (acc : List ParsedMsg),
      parseLoop lines r [] acc = acc ++ parseBlocks lines) ∧
    (∀ (ro : Role) (t : JSString) (acc : List ParsedMsg), t ≠ [] →
      parseLoop lines (some ro) t acc =
        acc ++ [⟨ro, jsTrim (joinCont t
            (lines.takeWhile (fun l => !isMarkerLine l)))⟩] ++
          parseBlocks (lines.dropWhile (fun l => !isMarkerLine l)))
  | [] => by
    constructor
    · intro r acc
      simp [parseLoop, pushCurrent_nil, parseBlocks]
    · intro ro t acc ht
      simp [parseLoop, pushCurrent, ht, joinCont, parseBlocks]
  | line :: rest => by
    obtain ⟨ihA, ihB⟩ := parseLoop_spec rest
    cases hU : userMarker.isPrefixOf line with
    | true =>
      have hm : isMarkerLine line = true := by simp [isMarkerLine, hU]
      constructor
      · intro r acc
        rw [parseLoop_user line rest r [] acc hU, pushCurrent_nil,
          parseBlocks_user line rest hU]
        by_cases hp : line.drop 6 = []
        · rw [hp, ihA (some Role.user) acc, parseBlocks_dropNonMarker rest]
          simp [hp]
        · rw [ihB Role.user (line.drop 6) acc hp, if_pos hp]
          simp
      · intro ro t acc ht
        rw [parseLoop_user line rest (some ro) t acc hU,
          pushCurrent_ne ro t acc ht]
        have hrhs : (line :: rest).takeWhile (fun l => !isMarkerLine l) = [] :=
          takeWhile_marker line rest hm
        rw [hrhs, dropWhile_marker line rest hm]
        have hjoin : joinCont t ([] : List JSString) = t := rfl
        rw [hjoin, parseBlocks_user line rest hU]
        by_cases hp : line.drop 6 = []
        · rw [hp, ihA (some Role.user) (acc ++ [ParsedMsg.mk ro (jsTrim t)]),
            parseBlocks_dropNonMarker rest]
          simp [hp]
        · rw [ihB Role.user (line.drop 6) (acc ++ [ParsedMsg.mk ro (jsTrim t)]) hp,
            if_pos hp]
          simp
    | false =>
      cases hA : aiMarker.isPrefixOf line with
      | true =>
        have hm : isMarkerLine line = true := by simp [isMarkerLine, hA]
        constructor
        · intro r acc
          rw [parseLoop_ai line rest r [] acc hU hA, pushCurrent_nil,
            parseBlocks_ai line rest hU hA]
          by_cases hp : line.drop 4 = []
          · rw [hp, ihA (some Role.ai) acc, parseBlocks_dropNonMarker rest]
            simp [hp]
          · rw [ihB Role.ai (line.drop 4) acc hp, if_pos hp]
            simp
        · intro ro t acc ht
          rw [parseLoop_ai line rest (some ro) t acc hU hA,
            pushCurrent_ne ro t acc ht]
          rw [takeWhile_marker line rest hm, dropWhile_marker line rest hm]
          have hjoin : joinCont t ([] : List JSString) = t := rfl
          rw [hjoin, parseBlocks_ai line rest hU hA]
          by_cases hp : line.drop 4 = []
          · rw [hp, ihA (some Role.ai) (acc ++ [ParsedMsg.mk ro (jsTrim t)]),
              parseBlocks_dropNonMarker rest]
            simp [hp]
          · rw [ihB Role.ai (line.drop 4) (acc ++ [ParsedMsg.mk ro (jsTrim t)]) hp,
              if_pos hp]
            simp
      | false =>
        have hm : isMarkerLine line = false := by simp [isMarkerLine, hU, hA]
        constructor
        · intro r acc
          rw [parseLoop_cont line rest r [] acc hU hA, if_neg (by simp),
            ihA r acc, parseBlocks_cont line rest hU hA]
        · intro ro t acc ht
          rw [parseLoop_cont line rest (some ro) t acc hU hA, if_pos ht]
          have ht2 : t ++ [' '] ++ jsTrim line ≠ [] := by simp
          rw [ihB ro (t ++ [' '] ++ jsTrim line) acc ht2,
            takeWhile_nonmarker line rest hm, dropWhile_nonmarker line rest hm]
          have hjoin : joinCont t (line :: rest.takeWhile (fun l => !isMarkerLine l)) =
              joinCont (t ++ [' '] ++ jsTrim line)
                (rest.takeWhile (fun l => !isMarkerLine l)) := rfl
          rw [hjoin]

/-- C10 (amended): parseTranslatedConversation returns, in order, one
entry per 'User: '/'AI: ' marker line whose payload is non-empty; lines
before the first marker line are discarded; a continuation line is
trimmed and space-joined onto the current text only when that text is
non-empty (so all continuation lines of an empty-payload marker are
discarded, and that marker yields no entry); each entry's text is
trimmed. -/
theorem parseTranslated_eq_parseBlocks (s : JSString) :
    parseTranslatedConversation s = parseBlocks (jsSplitOnNl s) := by
  unfold parseTranslatedConversation
  rw [(parseLoop_spec (jsSplitOnNl s)).1 none []]
  simp

/-! ## The voice-interface component: state

The React state of `VoiceInterface` (part_001:69-105) that the claims
touch, plus a model of the browser's localStorage (a key/value store
that survives the browser session).  Audio nodes, refs and timers live
outside this state. -/

/-- Connection status enum (part_001:12). -/
inductive ConnectionStatus
  | Idle
  | Initializing
  | MicRequest
  | ConnectingAPI
  | Listening
  | Processing
  | Speaking
  | Error
  deriving DecidableEq, Repr

/-- Accent regions (part_001:13). -/
inductive AccentRegion
  | Dhaka
  | Chittagong
  | Sylhet
  deriving DecidableEq, Repr

/-- A transcript item (part_001:16-22).  The `id` is produced from
Date.now() and Math.random(); it is passed in as a parameter. -/
structure TranscriptItem where
  text : JSString
  role : Role
  id : JSString
  isVerified : Option Bool
  translation : Option JSString
  deriving DecidableEq, Repr

/-- Write a key in localStorage (replace or add). -/
def storageSet (st : List (JSString × JSString)) (k v : JSString) :
    List (JSString × JSString) :=
  match st with
  | [] => [(k, v)]
  | (k', v') :: rest =>
    if k' = k then (k, v) :: rest else (k', v') :: storageSet rest k v

/-- Read a key from localStorage. -/
def storageGet (st : List (JSString × JSString)) (k : JSString) :
    Option JSString :=
  match st with
  | [] => none
  | (k', v) :: rest => if k' = k then some v else storageGet rest k

/-- `MIN_TYPING_SPEED_DELAY` (part_001:44). -/
def MIN_TYPING_SPEED_DELAY : ℚ := 0.02

/-- `MAX_TYPING_SPEED_DELAY` (part_001:45). -/
def MAX_TYPING_SPEED_DELAY : ℚ := 0.10

/-- `TYPING_SPEED_STEP` (part_001:46). -/
def TYPING_SPEED_STEP : ℚ := 0.02

/-- `ACCENT_DETECTION_KEY` (part_001:48). -/
def ACCENT_DETECTION_KEY : JSString := "autoAccentDetectionEnabled".toList

/-- `loadAutoAccentDetectionState` (part_001:50-58): read the key and
compare with 'true'. -/
def loadAutoAccentDetectionState (st : List (JSString × JSString)) : Bool :=
  storageGet st ACCENT_DETECTION_KEY = some "true".toList

/-- The component state the claims touch. -/
structure AppState where
  isActive : Bool
  isConnecting : Bool
  status : ConnectionStatus
  transcriptions : List TranscriptItem
  selectedAccent : AccentRegion
  isMicMuted : Bool
  showTranslations : Bool
  isAccentAutoDetected : Bool
  detectedAccentConfidence : Option ℚ
  typingSpeedDelay : ℚ
  isAutoAccentDetectionEnabled : Bool
  hasMediaStream : Bool
  micTracksEnabled : Bool
  localStorage : List (JSString × JSString)
  deriving DecidableEq, Repr

/-- The useState initial values (part_001:69-90), as a function of the
localStorage contents the session starts with. -/
def initialState (st : List (JSString × JSString)) : AppState where
  isActive := false
  isConnecting := false
  status := ConnectionStatus.Idle
  transcriptions := []
  selectedAccent := AccentRegion.Dhaka
  isMicMuted := false
  showTranslations := false
  isAccentAutoDetected := false
  detectedAccentConfidence := none
  typingSpeedDelay := 0.04
  isAutoAccentDetectionEnabled := loadAutoAccentDetectionState st
  hasMediaStream := false
  micTracksEnabled := true
  localStorage := st

/-- `addTranscription(text, role, isVerified, translation)`
(part_001:155-159): skip when both the text and the translation trim to
empty, else append one item. -/
def addTranscription (text : JSString) (role : Role) (isVerified : Option Bool)
    (translation : Option JSString) (id : JSString)
    (ts : List TranscriptItem) : List TranscriptItem :=
  if jsTrim text = [] ∧ jsTrim (translation.getD []) = [] then ts
  else ts ++ [⟨text, role, id, isVerified, translation⟩]

/-- The `setTranscriptions` update of `translateFullConversation`
(part_001:251-258): item at index i gets parsedTranslations[i]'s text as
its translation when that entry exists and roles agree, else stays. -/
def applyTranslations : List ParsedMsg → List TranscriptItem →
    List TranscriptItem
  | _, [] => []
  | [], t :: ts => t :: applyTranslations [] ts
  | p :: ps, t :: ts =>
    (if p.role = t.role then { t with translation := some p.translatedText }
     else t) :: applyTranslations ps ts

/-- A model-issued tool call, as dispatched by the `onmessage` callback
(part_001:475-527).  `translateConversation` carries the parsed
translation the external model returned for the conversation. -/
inductive ToolCall
  | checkOrderStatus (orderId : JSString)
  | detectAccent (accent : AccentRegion) (confidence : ℚ)
  | endCall
  | toggleMicrophone (shouldMute : Bool)
  | translateConversation (parsed : List ParsedMsg)
  | slowTypingSpeed
  | speedUpTypingSpeed

/-- The state effect of one tool call (part_001:476-527):
`check_order_status` and `end_call` only send responses;
`detect_accent` sets the accent, its confidence and the visual flag
(the 2-second timeout reset is a timer, outside this model);
`toggle_microphone` flips the track enables and the muted flag only when
a media stream is present; `translate_conversation` applies the parsed
translations and shows them; the two typing-speed calls step the delay
within [MIN, MAX]. -/
def applyToolCall (s : AppState) : ToolCall → AppState
  | ToolCall.checkOrderStatus _ => s
  | ToolCall.detectAccent accent confidence =>
    { s with selectedAccent := accent,
             detectedAccentConfidence := some confidence,
             isAccentAutoDetected := true }
  | ToolCall.endCall => s
  | ToolCall.toggleMicrophone shouldMute =>
    if s.hasMediaStream then
      { s with micTracksEnabled := !shouldMute, isMicMuted := shouldMute }
    else s
  | ToolCall.translateConversation parsed =>
    { s with transcriptions := applyTranslations parsed s.transcriptions,
             showTranslations := true }
  | ToolCall.slowTypingSpeed =>
    { s with
      typingSpeedDelay :=
        min (s.typingSpeedDelay + TYPING_SPEED_STEP) MAX_TYPING_SPEED_DELAY }
  | ToolCall.speedUpTypingSpeed =>
    { s with
      typingSpeedDelay :=
        max (s.typingSpeedDelay - TYPING_SPEED_STEP) MIN_TYPING_SPEED_DELAY }

theorem applyToolCall_delay_bounds (s : AppState) (c : ToolCall)
    (h1 : MIN_TYPING_SPEED_DELAY ≤ s.typingSpeedDelay)
    (h2 : s.typingSpeedDelay ≤ MAX_TYPING_SPEED_DELAY) :
    MIN_TYPING_SPEED_DELAY ≤ (applyToolCall s c).typingSpeedDelay ∧
    (applyToolCall s c).typingSpeedDelay ≤ MAX_TYPING_SPEED_DELAY := by
  have hstep : (0 : ℚ) ≤ TYPING_SPEED_STEP := by
    unfold TYPING_SPEED_STEP; norm_num
  have hminmax : MIN_TYPING_SPEED_DELAY ≤ MAX_TYPING_SPEED_DELAY := by
    unfold MIN_TYPING_SPEED_DELAY MAX_TYPING_SPEED_DELAY; norm_num
  cases c with
  | checkOrderStatus orderId => exact ⟨h1, h2⟩
  | detectAccent accent confidence => exact ⟨h1, h2⟩
  | endCall => exact ⟨h1, h2⟩
  | toggleMicrophone shouldMute =>
    simp only [applyToolCall]
    split <;> exact ⟨h1, h2⟩
  | translateConversation parsed => exact ⟨h1, h2⟩
  | slowTypingSpeed =>
    refine ⟨le_min (by linarith) hminmax, min_le_right _ _⟩
  | speedUpTypingSpeed =>
    refine ⟨le_max_right _ _, max_le (by linarith) hminmax⟩

theorem foldl_delay_bounds (calls : List ToolCall) :
    ∀ s : AppState, MIN_TYPING_SPEED_DELAY ≤ s.typingSpeedDelay →
      s.typingSpeedDelay ≤ MAX_TYPING_SPEED_DELAY →
      MIN_TYPING_SPEED_DELAY ≤
          (calls.foldl applyToolCall s).typingSpeedDelay ∧
        (calls.foldl applyToolCall s).typingSpeedDelay ≤
          MAX_TYPING_SPEED_DELAY := by
  induction calls with
  | nil => intro s h1 h2; exact ⟨h1, h2⟩
  | cons c cs ih =>
    intro s h1 h2
    obtain ⟨h1', h2'⟩ := applyToolCall_delay_bounds s c h1 h2
    exact ih (applyToolCall s c) h1' h2'

/-- C9: the typing-speed delay starts at 0.04; a slow_typing_speed call
raises it by at most 0.02, capped at 0.10, a speed_up_typing_speed call
lowers it by at most 0.02, floored at 0.02; after any sequence of tool
calls it stays in [0.02, 0.10]. -/
theorem typingSpeedDelay_invariant (st : List (JSString × JSString))
    (calls : List ToolCall) :
    (initialState st).typingSpeedDelay = 0.04 ∧
    (∀ s : AppState,
      (applyToolCall s ToolCall.slowTypingSpeed).typingSpeedDelay ≤
          s.typingSpeedDelay + 0.02 ∧
      (applyToolCall s ToolCall.slowTypingSpeed).typingSpeedDelay ≤ 0.10 ∧
      s.typingSpeedDelay - 0.02 ≤
          (applyToolCall s ToolCall.speedUpTypingSpeed).typingSpeedDelay ∧
      0.02 ≤ (applyToolCall s ToolCall.speedUpTypingSpeed).typingSpeedDelay) ∧
    0.02 ≤ (calls.foldl applyToolCall (initialState st)).typingSpeedDelay ∧
    (calls.foldl applyToolCall (initialState st)).typingSpeedDelay ≤ 0.10 := by
  have hbounds := foldl_delay_bounds calls (initialState st)
    (by unfold initialState MIN_TYPING_SPEED_DELAY; norm_num)
    (by unfold initialState MAX_TYPING_SPEED_DELAY; norm_num)
  refine ⟨rfl, ?_, ?_, ?_⟩
  · intro s
    unfold applyToolCall TYPING_SPEED_STEP MIN_TYPING_SPEED_DELAY
      MAX_TYPING_SPEED_DELAY
    refine ⟨?_, ?_, ?_, ?_⟩
    · exact le_trans (min_le_left _ _) (by linarith)
    · exact min_le_right _ _
    · exact le_max_left _ _
    · exact le_max_right _ _
  · exact (by unfold MIN_TYPING_SPEED_DELAY at hbounds; exact hbounds.1)
  · exact (by unfold MAX_TYPING_SPEED_DELAY at hbounds; exact hbounds.2)

theorem applyToolCall_hasMediaStream (s : AppState) (c : ToolCall) :
    (applyToolCall s c).hasMediaStream = s.hasMediaStream := by
  cases c
  case toggleMicrophone b =>
    simp only [applyToolCall]
    split <;> rfl
  all_goals rfl

/-- The should_mute argument of the most recent toggle_microphone call
of a sequence, if any. -/
def lastToggleMic : List ToolCall → Option Bool
  | [] => none
  | c :: cs =>
    match lastToggleMic cs with
    | some b => some b
    | none =>
      match c with
      | ToolCall.toggleMicrophone b => some b
      | _ => none

/-- The accent and confidence arguments of the most recent detect_accent
call of a sequence, if any. -/
def lastDetectAccent : List ToolCall → Option (AccentRegion × ℚ)
  | [] => none
  | c :: cs =>
    match lastDetectAccent cs with
    | some p => some p
    | none =>
      match c with
      | ToolCall.detectAccent a conf => some (a, conf)
      | _ => none

theorem foldl_isMicMuted : ∀ (calls : List ToolCall) (s : AppState),
    s.hasMediaStream = true →
    (calls.foldl applyToolCall s).isMicMuted =
      (lastToggleMic calls).getD s.isMicMuted
  | [], _, _ => rfl
  | c :: cs, s, hs => by
    have hs' : (applyToolCall s c).hasMediaStream = true := by
      rw [applyToolCall_hasMediaStream]; exact hs
    have ih := foldl_isMicMuted cs (applyToolCall s c) hs'
    rw [List.foldl_cons, ih]
    cases hlast : lastToggleMic cs with
    | some b => simp [lastToggleMic, hlast]
    | none =>
      cases c with
      | toggleMicrophone b =>
        simp only [lastToggleMic, hlast, applyToolCall, hs, if_true,
          Option.getD_none, Option.getD_some]
      | checkOrderStatus orderId => simp [lastToggleMic, hlast, applyToolCall]
      | detectAccent a conf => simp [lastToggleMic, hlast, applyToolCall]
      | endCall => simp [lastToggleMic, hlast, applyToolCall]
      | translateConversation parsed => simp [lastToggleMic, hlast, applyToolCall]
      | slowTypingSpeed => simp [lastToggleMic, hlast, applyToolCall]
      | speedUpTypingSpeed => simp [lastToggleMic, hlast, applyToolCall]

theorem foldl_accent : ∀ (calls : List ToolCall) (s : AppState),
    (calls.foldl applyToolCall s).selectedAccent =
      ((lastDetectAccent calls).map Prod.fst).getD s.selectedAccent ∧
    (calls.foldl applyToolCall s).detectedAccentConfidence =
      ((lastDetectAccent calls).map (fun p => some p.2)).getD
        s.detectedAccentConfidence
  | [], _ => ⟨rfl, rfl⟩
  | c :: cs, s => by
    obtain ⟨ih1, ih2⟩ := foldl_accent cs (applyToolCall s c)
    rw [List.foldl_cons, ih1, ih2]
    cases hlast : lastDetectAccent cs with
    | some p => constructor <;> simp [lastDetectAccent, hlast]
    | none =>
      cases c with
      | detectAccent a conf => constructor <;>
          simp [lastDetectAccent, hlast, applyToolCall]
      | toggleMicrophone b =>
        have hacc : (applyToolCall s (ToolCall.toggleMicrophone b)).selectedAccent
            = s.selectedAccent := by
          simp only [applyToolCall]; split <;> rfl
        have hconf :
            (applyToolCall s (ToolCall.toggleMicrophone b)).detectedAccentConfidence
            = s.detectedAccentConfidence := by
          simp only [applyToolCall]; split <;> rfl
        constructor <;> simp [lastDetectAccent, hlast, hacc, hconf]
      | checkOrderStatus orderId => constructor <;>
          simp [lastDetectAccent, hlast, applyToolCall]
      | endCall => constructor <;> simp [lastDetectAccent, hlast, applyToolCall]
      | translateConversation parsed => constructor <;>
          simp [lastDetectAccent, hlast, applyToolCall]
      | slowTypingSpeed => constructor <;>
          simp [lastDetectAccent, hlast, applyToolCall]
      | speedUpTypingSpeed => constructor <;>
          simp [lastDetectAccent, hlast, applyToolCall]

/-- C7: after any sequence of tool-call events on a state with an
active media stream, isMicMuted equals the should_mute argument of the
most recent toggle_microphone call, and selectedAccent and
detectedAccentConfidence equal the arguments of the most recent
detect_accent call. -/
theorem uiState_last_event (calls : List ToolCall) (s : AppState)
    (hs : s.hasMediaStream = true) :
    (∀ b, lastToggleMic calls = some b →
      (calls.foldl applyToolCall s).isMicMuted = b) ∧
    (∀ a conf, lastDetectAccent calls = some (a, conf) →
      (calls.foldl applyToolCall s).selectedAccent = a ∧
      (calls.foldl applyToolCall s).detectedAccentConfidence = some conf) := by
  constructor
  · intro b hb
    rw [foldl_isMicMuted calls s hs, hb]
    rfl
  · intro a conf h
    obtain ⟨h1, h2⟩ := foldl_accent calls s
    rw [h1, h2, h]
    exact ⟨rfl, rfl⟩

/-- Witness for `uiState_last_event` on a concrete event sequence. -/
theorem uiState_last_event_witness :
    (([ToolCall.toggleMicrophone true,
       ToolCall.detectAccent AccentRegion.Sylhet 1,
       ToolCall.toggleMicrophone false].foldl applyToolCall
        { initialState [] with hasMediaStream := true }).isMicMuted = false) ∧
    (([ToolCall.toggleMicrophone true,
       ToolCall.detectAccent AccentRegion.Sylhet 1,
       ToolCall.toggleMicrophone false].foldl applyToolCall
        { initialState [] with hasMediaStream := true }).selectedAccent =
      AccentRegion.Sylhet) :=
  ⟨(uiState_last_event _ _ rfl).1 false (by decide),
   ((uiState_last_event _ _ rfl).2 AccentRegion.Sylhet 1 (by decide)).1⟩

/-! ## Playback scheduling of streamed response audio

The audio branch of `onmessage` (part_001:537-570): on arrival of a
chunk, `nextStartTime := max(nextStartTime, currentTime)`, the source is
started at that time, and `nextStartTime` then advances by the chunk's
duration.  A chunk is modelled as the pair (currentTime at arrival,
buffer duration); the message handlers run sequentially. -/

/-- Fold the scheduling logic over arriving chunks from a given
nextStartTime; returns the (start, duration) pairs in arrival order and
the final nextStartTime. -/
def scheduleAll : ℚ → List (ℚ × ℚ) → List (ℚ × ℚ) × ℚ
  | nst, [] => ([], nst)
  | nst, c :: cs =>
    ((max nst c.1, c.2) :: (scheduleAll (max nst c.1 + c.2) cs).1,
     (scheduleAll (max nst c.1 + c.2) cs).2)

theorem scheduleAll_spec : ∀ (chunks : List (ℚ × ℚ)) (nst : ℚ),
    (∀ c ∈ chunks, 0 ≤ c.2) →
    nst ≤ (scheduleAll nst chunks).2 ∧
    (∀ p ∈ (scheduleAll nst chunks).1, nst ≤ p.1) ∧
    List.Chain' (fun a b : ℚ × ℚ => a.1 + a.2 ≤ b.1) (scheduleAll nst chunks).1
  | [], nst, _ => ⟨le_refl _, by simp [scheduleAll], by simp [scheduleAll]⟩
  | c :: cs, nst, hd => by
    have hd0 : 0 ≤ c.2 := hd c (by simp)
    have hdc : ∀ x ∈ cs, 0 ≤ x.2 := fun x hx => hd x (by simp [hx])
    obtain ⟨ih1, ih2, ih3⟩ := scheduleAll_spec cs (max nst c.1 + c.2) hdc
    have hstart : nst ≤ max nst c.1 := le_max_left _ _
    have hnst1 : nst ≤ max nst c.1 + c.2 := by linarith
    refine ⟨?_, ?_, ?_⟩
    · simp only [scheduleAll]
      exact le_trans hnst1 ih1
    · intro p hp
      simp only [scheduleAll, List.mem_cons] at hp
      rcases hp with rfl | hp
      · exact hstart
      · exact le_trans hnst1 (ih2 p hp)
    · simp only [scheduleAll]
      rw [List.chain'_cons']
      refine ⟨?_, ih3⟩
      intro b hb
      have hbmem : b ∈ (scheduleAll (max nst c.1 + c.2) cs).1 :=
        List.mem_of_mem_head? hb
      have hble := ih2 b hbmem
      show (max nst c.1, c.2).1 + (max nst c.1, c.2).2 ≤ b.1
      simpa using hble

/-- C3: with non-negative chunk durations, each arriving chunk is
scheduled at max(nextStartTime, currentTime) (the head equation),
nextStartTime advances by the chunk's duration and never decreases, and
the scheduled intervals of successive chunks are disjoint and ordered by
arrival (each interval ends no later than the next one starts). -/
theorem playbackSchedule_ordered (chunks : List (ℚ × ℚ)) (nst : ℚ)
    (hd : ∀ c ∈ chunks, 0 ≤ c.2) :
    (∀ c cs, (scheduleAll nst (c :: cs)).1.head? = some (max nst c.1, c.2) ∧
      (scheduleAll nst [c]).2 = max nst c.1 + c.2) ∧
    nst ≤ (scheduleAll nst chunks).2 ∧
    (∀ p ∈ (scheduleAll nst chunks).1, nst ≤ p.1) ∧
    List.Chain' (fun a b : ℚ × ℚ => a.1 + a.2 ≤ b.1)
      (scheduleAll nst chunks).1 := by
  refine ⟨fun c cs => ⟨rfl, rfl⟩, ?_⟩
  exact scheduleAll_spec chunks nst hd

/-- Witness for `playbackSchedule_ordered` on two concrete chunks. -/
theorem playbackSchedule_ordered_witness :
    (∀ c ∈ [((0 : ℚ), (1 : ℚ)), (2, 3)], 0 ≤ c.2) ∧
    (0 : ℚ) ≤ (scheduleAll 0 [((0 : ℚ), (1 : ℚ)), (2, 3)]).2 ∧
    List.Chain' (fun a b : ℚ × ℚ => a.1 + a.2 ≤ b.1)
      (scheduleAll 0 [((0 : ℚ), (1 : ℚ)), (2, 3)]).1 :=
  ⟨by decide,
   (playbackSchedule_ordered [((0 : ℚ), (1 : ℚ)), (2, 3)] 0 (by decide)).2.1,
   (playbackSchedule_ordered [((0 : ℚ), (1 : ℚ)), (2, 3)] 0 (by decide)).2.2.2⟩

/-! ## startSession failure handling (part_001:344-612)

A failing startSession: either the proactive enumerate-devices check
finds no audio input (part_001:351-360), or getUserMedia / session setup
throws and the catch block (part_001:595-611) dispatches on the error
name.  In every failing path the code sets status 'Error', appends a
message via addTranscription, and resets isConnecting; isActive is only
ever set in the onopen callback, which a failing start never reaches. -/

/-- The ways startSession can fail, by error name (aliases included). -/
inductive StartFailure
  | noMicDevices
  | errNotFound
  | errDevicesNotFound
  | errNotAllowed
  | errPermissionDenied
  | errNotReadable
  | errTrackStart
  | errOther (message : JSString)
  deriving DecidableEq, Repr

/-- The message each failing path appends (part_001:357, 599, 602, 605,
608). -/
def failureMessage : StartFailure → JSString
  | StartFailure.noMicDevices =>
    "No microphone devices found. Please connect a microphone and ensure it is enabled.".toList
  | StartFailure.errNotFound =>
    "Microphone not found. Please ensure a microphone is connected and enabled.".toList
  | StartFailure.errDevicesNotFound =>
    "Microphone not found. Please ensure a microphone is connected and enabled.".toList
  | StartFailure.errNotAllowed =>
    "Microphone access denied. Please allow microphone permissions in your browser settings.".toList
  | StartFailure.errPermissionDenied =>
    "Microphone access denied. Please allow microphone permissions in your browser settings.".toList
  | StartFailure.errNotReadable =>
    "Microphone is in use or not accessible. Please check if another application is using it.".toList
  | StartFailure.errTrackStart =>
    "Microphone is in use or not accessible. Please check if another application is using it.".toList
  | StartFailure.errOther message =>
    "Failed to start session: ".toList ++ message

/-- The browser permission/device errors claim C6 enumerates, plus the
proactive no-microphone check. -/
def isDeviceError : StartFailure → Bool
  | StartFailure.errOther _ => false
  | _ => true

/-- The net state effect of a failing `startSession` (part_001:344-360,
595-611): nothing when a session is already connecting or active
(part_001:345), else status 'Error' (Initializing is overwritten), the
failure message appended as an 'ai' transcript item, and isConnecting
reset to false. -/
def startSessionFailure (f : StartFailure) (id : JSString) (s : AppState) :
    AppState :=
  if s.isConnecting || s.isActive then s
  else
    { s with
      status := ConnectionStatus.Error,
      transcriptions :=
        addTranscription (failureMessage f) Role.ai none none id
          s.transcriptions,
      isConnecting := false }

/-- C6: when startSession fails with a permission/device error (or the
proactive no-microphone check) from an idle state, the status becomes
'Error', a non-blank human-readable message is appended to the
transcript, and the session does not become active: isActive stays
false and isConnecting is false. -/
theorem startSessionFailure_spec (f : StartFailure) (id : JSString)
    (s : AppState) (hb : s.isConnecting = false) (ha : s.isActive = false)
    (hf : isDeviceError f = true) :
    (startSessionFailure f id s).status = ConnectionStatus.Error ∧
    (startSessionFailure f id s).isActive = false ∧
    (startSessionFailure f id s).isConnecting = false ∧
    jsTrim (failureMessage f) ≠ [] ∧
    (startSessionFailure f id s).transcriptions =
      s.transcriptions ++ [⟨failureMessage f, Role.ai, id, none, none⟩] := by
  have hmsg : jsTrim (failureMessage f) ≠ [] := by
    cases f
    case errOther m => simp [isDeviceError] at hf
    all_goals decide
  have hcond : (s.isConnecting || s.isActive) = false := by
    rw [hb, ha]; rfl
  have hadd : addTranscription (failureMessage f) Role.ai none none id
      s.transcriptions =
      s.transcriptions ++ [⟨failureMessage f, Role.ai, id, none, none⟩] := by
    unfold addTranscription
    rw [if_neg]
    intro hand
    exact hmsg hand.1
  unfold startSessionFailure
  rw [hcond, if_neg Bool.false_ne_true, hadd]
  exact ⟨rfl, ha, rfl, hmsg, rfl⟩

/-- Witness for `startSessionFailure_spec` on a denied-permission
failure from the initial state. -/
theorem startSessionFailure_spec_witness :
    (startSessionFailure StartFailure.errNotAllowed [] (initialState [])).status
        = ConnectionStatus.Error ∧
    (startSessionFailure StartFailure.errNotAllowed [] (initialState [])).isActive
        = false ∧
    (startSessionFailure StartFailure.errNotAllowed [] (initialState [])).isConnecting
        = false ∧
    jsTrim (failureMessage StartFailure.errNotAllowed) ≠ [] ∧
    (startSessionFailure StartFailure.errNotAllowed [] (initialState [])).transcriptions
        = (initialState []).transcriptions ++
          [⟨failureMessage StartFailure.errNotAllowed, Role.ai, [], none, none⟩] :=
  startSessionFailure_spec StartFailure.errNotAllowed [] (initialState [])
    rfl rfl rfl

/-! ## Component operations, durable storage, and the transcript -/

/-- `stopSession` (part_001:161-194): stop tracks and sources, close
contexts, reset the session state.  Refs and audio nodes live outside
AppState; the state resets are modelled. -/
def stopSession (s : AppState) : AppState :=
  { s with
    hasMediaStream := false,
    isActive := false,
    isConnecting := false,
    status := ConnectionStatus.Idle,
    isMicMuted := false,
    showTranslations := false,
    typingSpeedDelay := 0.04,
    detectedAccentConfidence := none }

/-- `handleToggleAutoAccentDetection` (part_001:614-627): set the flag,
persist it to localStorage under ACCENT_DETECTION_KEY, and when a
session is active stop it (the subsequent restart is an asynchronous
startSession whose outcome arrives separately and never touches
localStorage). -/
def handleToggleAutoAccentDetection (checked : Bool) (s : AppState) :
    AppState :=
  let s1 := { s with
    isAutoAccentDetectionEnabled := checked,
    localStorage := storageSet s.localStorage ACCENT_DETECTION_KEY
      (if checked then "true".toList else "false".toList) }
  if s1.isActive then stopSession s1 else s1

/-- A state-changing operation of the voice-interface component. -/
inductive UIOperation
  | toolCallOp (tc : ToolCall)
  | addTranscriptionOp (text : JSString) (role : Role)
      (isVerified : Option Bool) (translation : Option JSString)
      (id : JSString)
  | startSessionFailureOp (f : StartFailure) (id : JSString)
  | stopSessionOp
  | toggleAutoAccent (checked : Bool)
  | selectAccentOp (a : AccentRegion)

/-- Apply one operation to the component state. -/
def applyUIOperation (s : AppState) : UIOperation → AppState
  | UIOperation.toolCallOp tc => applyToolCall s tc
  | UIOperation.addTranscriptionOp text role iv tr id =>
    { s with transcriptions :=
        addTranscription text role iv tr id s.transcriptions }
  | UIOperation.startSessionFailureOp f id => startSessionFailure f id s
  | UIOperation.stopSessionOp => stopSession s
  | UIOperation.toggleAutoAccent checked =>
    handleToggleAutoAccentDetection checked s
  | UIOperation.selectAccentOp a => { s with selectedAccent := a }

theorem applyToolCall_localStorage (s : AppState) (tc : ToolCall) :
    (applyToolCall s tc).localStorage = s.localStorage := by
  cases tc
  case toggleMicrophone b =>
    simp only [applyToolCall]
    split <;> rfl
  all_goals rfl

theorem storageGet_set_ne : ∀ (st : List (JSString × JSString))
    (k v k' : JSString), k' ≠ k →
    storageGet (storageSet st k v) k' = storageGet st k'
  | [], k, v, k', hk => by
    simp only [storageSet, storageGet]
    rw [if_neg (fun h => hk h.symm)]
  | (k0, v0) :: rest, k, v, k', hk => by
    simp only [storageSet]
    by_cases h0 : k0 = k
    · subst h0
      simp only [if_pos rfl, storageGet]
      rw [if_neg (fun h => hk h.symm), if_neg (fun h => hk h.symm)]
    · rw [if_neg h0]
      simp only [storageGet]
      by_cases h0' : k0 = k'
      · rw [if_pos h0', if_pos h0']
      · rw [if_neg h0', if_neg h0', storageGet_set_ne rest k v k' hk]

/-- C4 counterexample: toggling auto accent detection writes the flag to
localStorage, durable storage that survives the browser session (the
component reads it back through loadAutoAccentDetectionState on the next
mount). -/
theorem localStorage_persistence_counterexample :
    (applyUIOperation (initialState [])
        (UIOperation.toggleAutoAccent true)).localStorage ≠
      (initialState []).localStorage ∧
    storageGet (applyUIOperation (initialState [])
        (UIOperation.toggleAutoAccent true)).localStorage
      ACCENT_DETECTION_KEY = some "true".toList ∧
    loadAutoAccentDetectionState
      (applyUIOperation (initialState [])
        (UIOperation.toggleAutoAccent true)).localStorage = true :=
  ⟨by decide, by decide, by decide⟩

/-- C4 (amended): the auto-accent-detection toggle is the only modelled
operation that writes durable storage, and it writes only
ACCENT_DETECTION_KEY; every other operation leaves localStorage
untouched, and every operation leaves every other key untouched. -/
theorem localStorage_frame (s : AppState) (op : UIOperation) :
    ((∀ b, op ≠ UIOperation.toggleAutoAccent b) →
      (applyUIOperation s op).localStorage = s.localStorage) ∧
    (∀ k, k ≠ ACCENT_DETECTION_KEY →
      storageGet (applyUIOperation s op).localStorage k =
        storageGet s.localStorage k) := by
  cases op with
  | toolCallOp tc =>
    rw [show applyUIOperation s (UIOperation.toolCallOp tc) =
      applyToolCall s tc from rfl, applyToolCall_localStorage]
    exact ⟨fun _ => rfl, fun _ _ => rfl⟩
  | addTranscriptionOp text role iv tr id => exact ⟨fun _ => rfl, fun _ _ => rfl⟩
  | startSessionFailureOp f id =>
    have hst : (startSessionFailure f id s).localStorage = s.localStorage := by
      unfold startSessionFailure
      split <;> rfl
    rw [show applyUIOperation s (UIOperation.startSessionFailureOp f id) =
      startSessionFailure f id s from rfl, hst]
    exact ⟨fun _ => rfl, fun _ _ => rfl⟩
  | stopSessionOp => exact ⟨fun _ => rfl, fun _ _ => rfl⟩
  | toggleAutoAccent b =>
    constructor
    · intro h
      exact absurd rfl (h b)
    · intro k hk
      have hst : (applyUIOperation s (UIOperation.toggleAutoAccent b)).localStorage
          = storageSet s.localStorage ACCENT_DETECTION_KEY
            (if b then "true".toList else "false".toList) := by
        simp only [applyUIOperation, handleToggleAutoAccentDetection]
        split <;> rfl
      rw [hst, storageGet_set_ne s.localStorage _ _ k hk]
  | selectAccentOp a => exact ⟨fun _ => rfl, fun _ _ => rfl⟩

/-- Witness for `localStorage_frame`: stopSession preserves storage, and
the toggle preserves an unrelated key. -/
theorem localStorage_frame_witness :
    (applyUIOperation (initialState []) UIOperation.stopSessionOp).localStorage
        = (initialState []).localStorage ∧
    storageGet (applyUIOperation (initialState [])
        (UIOperation.toggleAutoAccent true)).localStorage "other".toList =
      storageGet (initialState []).localStorage "other".toList :=
  ⟨(localStorage_frame (initialState []) UIOperation.stopSessionOp).1
      (by intro b h; cases h),
   (localStorage_frame (initialState []) (UIOperation.toggleAutoAccent true)).2
      "other".toList (by decide)⟩

/-- The fields of a transcript item other than its translation. -/
def coreOf (t : TranscriptItem) : JSString × Role × JSString × Option Bool :=
  (t.text, t.role, t.id, t.isVerified)

theorem applyTranslations_core : ∀ (p : List ParsedMsg)
    (ts : List TranscriptItem),
    (applyTranslations p ts).map coreOf = ts.map coreOf
  | [], [] => rfl
  | _ :: _, [] => rfl
  | [], t :: ts => by
    simp only [applyTranslations, List.map_cons,
      applyTranslations_core [] ts]
  | p :: ps, t :: ts => by
    simp only [applyTranslations, List.map_cons,
      applyTranslations_core ps ts]
    congr 1
    split <;> rfl

theorem addTranscription_append (text : JSString) (role : Role)
    (iv : Option Bool) (tr : Option JSString) (id : JSString)
    (ts : List TranscriptItem) :
    ∃ new, addTranscription text role iv tr id ts = ts ++ new := by
  unfold addTranscription
  split
  · exact ⟨[], (List.append_nil _).symm⟩
  · exact ⟨[⟨text, role, id, iv, tr⟩], rfl⟩

/-- C5 counterexample: translate_conversation rewrites existing
transcript items in place (it sets their translation field), so the
transcript after it is not the old list with new items appended. -/
theorem transcript_append_counterexample :
    ¬ ∃ new, (applyUIOperation
        { initialState [] with transcriptions :=
            [⟨"hi".toList, Role.user, "1".toList, none, none⟩] }
        (UIOperation.toolCallOp (ToolCall.translateConversation
          [⟨Role.user, "hello".toList⟩]))).transcriptions =
      [(⟨"hi".toList, Role.user, "1".toList, none, none⟩ : TranscriptItem)]
        ++ new := by
  rintro ⟨new, h⟩
  have hres : (applyUIOperation
      { initialState [] with transcriptions :=
          [⟨"hi".toList, Role.user, "1".toList, none, none⟩] }
      (UIOperation.toolCallOp (ToolCall.translateConversation
        [⟨Role.user, "hello".toList⟩]))).transcriptions =
      [⟨"hi".toList, Role.user, "1".toList, none, some "hello".toList⟩] := by
    decide
  rw [hres] at h
  cases new with
  | nil =>
    rw [List.append_nil] at h
    exact absurd h (by decide)
  | cons a l =>
    have hlen := congrArg List.length h
    simp [List.length_append] at hlen

/-- C5 (amended): every modelled operation preserves the text, role, id
and isVerified of all existing transcript items, in order, and only ever
adds items at the end; the one in-place change is writing translation
fields (translate_conversation). -/
theorem transcript_core_append (s : AppState) (op : UIOperation) :
    ∃ new : List TranscriptItem,
      (applyUIOperation s op).transcriptions.map coreOf =
        s.transcriptions.map coreOf ++ new.map coreOf := by
  cases op with
  | toolCallOp tc =>
    cases tc with
    | translateConversation parsed =>
      refine ⟨[], ?_⟩
      rw [show (applyUIOperation s (UIOperation.toolCallOp
        (ToolCall.translateConversation parsed))).transcriptions =
        applyTranslations parsed s.transcriptions from rfl]
      rw [applyTranslations_core]
      simp
    | toggleMicrophone b =>
      refine ⟨[], ?_⟩
      rw [show applyUIOperation s (UIOperation.toolCallOp
        (ToolCall.toggleMicrophone b)) =
        applyToolCall s (ToolCall.toggleMicrophone b) from rfl]
      simp only [applyToolCall]
      split <;> simp
    | checkOrderStatus orderId => exact ⟨[], by simp [applyUIOperation, applyToolCall]⟩
    | detectAccent a conf => exact ⟨[], by simp [applyUIOperation, applyToolCall]⟩
    | endCall => exact ⟨[], by simp [applyUIOperation, applyToolCall]⟩
    | slowTypingSpeed => exact ⟨[], by simp [applyUIOperation, applyToolCall]⟩
    | speedUpTypingSpeed => exact ⟨[], by simp [applyUIOperation, applyToolCall]⟩
  | addTranscriptionOp text role iv tr id =>
    obtain ⟨new, hnew⟩ := addTranscription_append text role iv tr id
      s.transcriptions
    refine ⟨new, ?_⟩
    rw [show (applyUIOperation s
      (UIOperation.addTranscriptionOp text role iv tr id)).transcriptions =
      addTranscription text role iv tr id s.transcriptions from rfl, hnew]
    simp
  | startSessionFailureOp f id =>
    rw [show applyUIOperation s (UIOperation.startSessionFailureOp f id) =
      startSessionFailure f id s from rfl]
    unfold startSessionFailure
    split
    · exact ⟨[], by simp⟩
    · obtain ⟨new, hnew⟩ := addTranscription_append (failureMessage f) Role.ai
        none none id s.transcriptions
      refine ⟨new, ?_⟩
      rw [show ({ s with
        status := ConnectionStatus.Error,
        transcriptions := addTranscription (failureMessage f) Role.ai none
          none id s.transcriptions,
        isConnecting := false } : AppState).transcriptions =
        addTranscription (failureMessage f) Role.ai none none id
          s.transcriptions from rfl, hnew]
      simp
  | stopSessionOp => exact ⟨[], by simp [applyUIOperation, stopSession]⟩
  | toggleAutoAccent b =>
    refine ⟨[], ?_⟩
    rw [show applyUIOperation s (UIOperation.toggleAutoAccent b) =
      handleToggleAutoAccentDetection b s from rfl]
    simp only [handleToggleAutoAccentDetection]
    split <;> simp [stopSession]
  | selectAccentOp a => exact ⟨[], by simp [applyUIOperation]⟩

end AmarVoice
